import Mathlib

/-!
The dual-MCU bus protocol loop.

A shallow embedding of `main` in `demo/dual-mcu/dual-mcu.c` and the properties of
its slot allocation, drive pattern, cycle counter and event order.

Conventions of the embedding:
* `uint8_t` / `uint32_t` values are natural numbers, conversions are explicit
  (`toU8`, `toU32`);
* `int` expressions are integers (`lineIndex`), and the one operation of the loop
  that C leaves undefined for some operands, `1 << s`, returns an `Option`;
* the two blocking engine calls are driven by an explicit environment.
-/

namespace DualMcu

/-! ## Expressions of the loop body (lines 26 to 35) -/

/-- Conversion of a non-negative value to `uint32_t`. -/
def toU32 (x : Nat) : Nat := x % 2 ^ 32

/-- Conversion of a non-negative value to `uint8_t`. -/
def toU8 (x : Nat) : Nat := x % 2 ^ 8

/-- The shift amount of line 26, `(mcu == 0) ? bus_cycle : (8 - bus_cycle)`.
`bus_cycle` is promoted to `int`, so the subtraction is an integer subtraction. -/
def lineIndex (mcu bus_cycle : Nat) : Int :=
  if mcu = 0 then (bus_cycle : Int) else 8 - (bus_cycle : Int)

/-- The C expression `1 << s` on a 32-bit `int`: its value is `2 ^ s` when
`0 ≤ s ≤ 30`, and the behaviour is undefined otherwise (`none`). -/
def shl1 (s : Int) : Option Nat :=
  if 0 ≤ s ∧ s ≤ 30 then some (1 <<< s.toNat) else none

/-- Line 26: `uint32_t bus_val = (1 << (...)) ^ 0xff;`. -/
def busVal (mcu bus_cycle : Nat) : Option Nat :=
  match shl1 (lineIndex mcu bus_cycle) with
  | none => none
  | some v => some (toU32 (v ^^^ 0xff))

/-- Line 27: `uint32_t out_dirs = bus_val ^ 0xff;`. -/
def outDirs (bus_val : Nat) : Nat := toU32 (bus_val ^^^ 0xff)

/-- Line 35: `bus_cycle = (bus_cycle + 1) % 8;` with the store into `uint8_t`. -/
def nextCycle (bus_cycle : Nat) : Nat := toU8 ((bus_cycle + 1) % 8)

/-- The argument of `pio_sm_put_blocking` (line 28) in an iteration that starts
with counter value `bus_cycle`. -/
def putArg (mcu bus_cycle : Nat) : Option Nat :=
  match busVal mcu bus_cycle with
  | none => none
  | some bus_val => some (outDirs bus_val)

/-! ## One iteration of the `while` loop and the run of the loop -/

/-- The arguments of the `printf` call of line 34: `mcu`, `bus_val` ("value put")
and `read_val` ("value read"). -/
structure Report where
  mcu : Nat
  bus_val : Nat
  read_val : Nat
deriving DecidableEq

/-- What one iteration does, in program order: the word given to
`pio_sm_put_blocking`, the argument of `sleep_us` when it is called, and the
diagnostic line. -/
structure Iter where
  put : Nat
  sleep : Option Nat
  report : Report
deriving DecidableEq

/-- Lines 26 to 35 for role `mcu`, counter `bus_cycle` and the value `rx` that
`pio_sm_get_blocking` returns: the record of the iteration and the new counter.
`none` when the shift of line 26 is undefined. -/
def iteration (mcu bus_cycle rx : Nat) : Option (Iter × Nat) :=
  match busVal mcu bus_cycle with
  | none => none
  | some bus_val =>
    let out_dirs := outDirs bus_val
    let read_val := toU32 rx
    some (Iter.mk out_dirs (if mcu = 0 then some 10 else none) (Report.mk mcu bus_val read_val),
      nextCycle bus_cycle)

/-- The loop from its initial state (`bus_cycle = 0`, line 20) through `n`
iterations; `rx k` is the value returned by the `k`-th call of
`pio_sm_get_blocking`. Returns the iterations, oldest first, and the counter. -/
def run (mcu : Nat) (rx : Nat → Nat) : Nat → Option (List Iter × Nat)
  | 0 => some ([], 0)
  | n + 1 =>
    match run mcu rx n with
    | none => none
    | some (log, bus_cycle) =>
      match iteration mcu bus_cycle (rx n) with
      | none => none
      | some (it, bus_cycle') => some (log ++ [it], bus_cycle')

/-- The counter `bus_cycle` after `n` completed iterations. -/
def cycleAt (mcu : Nat) (rx : Nat → Nat) (n : Nat) : Option Nat :=
  match run mcu rx n with
  | none => none
  | some (_, bus_cycle) => some bus_cycle

/-- The record of iteration number `n` (counted from 0). -/
def iterAt (mcu : Nat) (rx : Nat → Nat) (n : Nat) : Option Iter :=
  match run mcu rx n with
  | none => none
  | some (_, bus_cycle) =>
    match iteration mcu bus_cycle (rx n) with
    | none => none
    | some (it, _) => some it

/-- The line index claimed in iteration number `n`. -/
def indexAt (mcu : Nat) (rx : Nat → Nat) (n : Nat) : Option Int :=
  match cycleAt mcu rx n with
  | none => none
  | some bus_cycle => some (lineIndex mcu bus_cycle)

/-- The word submitted to the engine in iteration number `n`. -/
def putAt (mcu : Nat) (rx : Nat → Nat) (n : Nat) : Option Nat :=
  match iterAt mcu rx n with
  | none => none
  | some it => some it.put

/-! ## The loop as a sequence of events -/

/-- The observable steps of the loop body. -/
inductive Event where
  | put (out_dirs : Nat)
  | get (read_val : Nat)
  | sleep (us : Nat)
  | print (r : Report)
  | advance (bus_cycle : Nat)
deriving DecidableEq

/-- Program points of the loop body: before line 26, at the call of line 28, at
the call of line 29, at lines 31 to 34, at line 35. -/
inductive Pc where
  | compute
  | put
  | get
  | report
  | advance
deriving DecidableEq

/-- What the engine offers at one instant: whether its input queue takes a word
(then `pio_sm_put_blocking` returns) and the word its output queue holds, if any
(then `pio_sm_get_blocking` returns it). -/
structure Engine where
  txReady : Bool
  rx : Option Nat
deriving DecidableEq

/-- The variables of `main` that the loop uses, the program point, and the events
so far, newest first. -/
structure State where
  pc : Pc
  bus_cycle : Nat
  bus_val : Nat
  out_dirs : Nat
  read_val : Nat
  trace : List Event
deriving DecidableEq

/-- Entry of the loop: `bus_cycle = 0` (line 20), nothing has happened. -/
def init : State := State.mk Pc.compute 0 0 0 0 []

/-- One step of the loop body against the engine. A blocking call whose engine
side is not ready leaves the state as it is. -/
def step (mcu : Nat) (e : Engine) (s : State) : Option State :=
  match s.pc with
  | Pc.compute =>
    match busVal mcu s.bus_cycle with
    | none => none
    | some bus_val => some { s with pc := Pc.put, bus_val := bus_val, out_dirs := outDirs bus_val }
  | Pc.put =>
    if e.txReady then some { s with pc := Pc.get, trace := Event.put s.out_dirs :: s.trace }
    else some s
  | Pc.get =>
    match e.rx with
    | none => some s
    | some v =>
      some { s with pc := Pc.report, read_val := toU32 v, trace := Event.get (toU32 v) :: s.trace }
  | Pc.report =>
    some { s with
      pc := Pc.advance,
      trace := Event.print (Report.mk mcu s.bus_val s.read_val) ::
        ((if mcu = 0 then [Event.sleep 10] else []) ++ s.trace) }
  | Pc.advance =>
    some { s with
      pc := Pc.compute,
      bus_cycle := nextCycle s.bus_cycle,
      trace := Event.advance (nextCycle s.bus_cycle) :: s.trace }

/-- Steps of the loop against a finite sequence of engine offers. -/
def exec (mcu : Nat) : List Engine → State → Option State
  | [], s => some s
  | e :: es, s =>
    match step mcu e s with
    | none => none
    | some s' => exec mcu es s'

/-- Number of completed submits in a trace. -/
def numPuts : List Event → Nat
  | [] => 0
  | Event.put _ :: t => numPuts t + 1
  | _ :: t => numPuts t

/-- Number of completed retrieves in a trace. -/
def numGets : List Event → Nat
  | [] => 0
  | Event.get _ :: t => numGets t + 1
  | _ :: t => numGets t

/-- Number of counter advances in a trace. -/
def numAdvances : List Event → Nat
  | [] => 0
  | Event.advance _ :: t => numAdvances t + 1
  | _ :: t => numAdvances t

/-- The submitted words of a trace, oldest first. -/
def putWords : List Event → List Nat
  | [] => []
  | Event.put w :: t => putWords t ++ [w]
  | _ :: t => putWords t

/-- The events since the latest counter advance, oldest first. -/
def currentIter : List Event → List Event
  | [] => []
  | Event.advance _ :: _ => []
  | e :: t => currentIter t ++ [e]

/-- The events of a complete loop body before its advance, for role `mcu`. -/
def bodyEvents (mcu out_dirs bus_val read_val : Nat) : List Event :=
  [Event.put out_dirs, Event.get read_val] ++ (if mcu = 0 then [Event.sleep 10] else []) ++
    [Event.print (Report.mk mcu bus_val read_val)]

/-- Invariant of the event model. -/
def Inv (mcu : Nat) (s : State) : Prop :=
  s.bus_cycle = numAdvances s.trace % 8 ∧
  (putWords s.trace).map some =
    (List.range (numPuts s.trace)).map (fun k => putArg mcu (k % 8)) ∧
  numGets s.trace ≤ numPuts s.trace ∧
  match s.pc with
  | Pc.compute =>
    numPuts s.trace = numAdvances s.trace ∧ numGets s.trace = numAdvances s.trace ∧
      currentIter s.trace = []
  | Pc.put =>
    numPuts s.trace = numAdvances s.trace ∧ numGets s.trace = numAdvances s.trace ∧
      currentIter s.trace = [] ∧
      busVal mcu s.bus_cycle = some s.bus_val ∧ s.out_dirs = outDirs s.bus_val
  | Pc.get =>
    numPuts s.trace = numAdvances s.trace + 1 ∧ numGets s.trace = numAdvances s.trace ∧
      currentIter s.trace = [Event.put s.out_dirs] ∧
      busVal mcu s.bus_cycle = some s.bus_val ∧ s.out_dirs = outDirs s.bus_val
  | Pc.report =>
    numPuts s.trace = numAdvances s.trace + 1 ∧ numGets s.trace = numAdvances s.trace + 1 ∧
      currentIter s.trace = [Event.put s.out_dirs, Event.get s.read_val] ∧
      busVal mcu s.bus_cycle = some s.bus_val ∧ s.out_dirs = outDirs s.bus_val
  | Pc.advance =>
    numPuts s.trace = numAdvances s.trace + 1 ∧ numGets s.trace = numAdvances s.trace + 1 ∧
      currentIter s.trace = bodyEvents mcu s.out_dirs s.bus_val s.read_val ∧
      busVal mcu s.bus_cycle = some s.bus_val ∧ s.out_dirs = outDirs s.bus_val

/-! ## Slot allocation and drive pattern -/

theorem lineIndex_zero (c : Nat) : lineIndex 0 c = (c : Int) := by
  simp [lineIndex]

theorem lineIndex_of_ne_zero (mcu c : Nat) (h : mcu ≠ 0) : lineIndex mcu c = 8 - (c : Int) := by
  simp [lineIndex, h]

theorem busVal_of_ne_zero (mcu c : Nat) (h : mcu ≠ 0) : busVal mcu c = busVal 1 c := by
  simp [busVal, lineIndex, h]

theorem putArg_of_ne_zero (mcu c : Nat) (h : mcu ≠ 0) : putArg mcu c = putArg 1 c := by
  simp [putArg, busVal_of_ne_zero mcu c h]

/-- C1 (counterexample): at cycle 4, inside [1, 7], MCU-A claims line `4` and
MCU-B claims line `8 - 4 = 4`: the two shift amounts coincide. -/
theorem slot_exclusivity_fails_at_four :
    (1 ≤ 4 ∧ 4 ≤ 7) ∧ lineIndex 0 4 = 4 ∧ lineIndex 1 4 = 4 ∧ lineIndex 0 4 = lineIndex 1 4 := by
  decide

/-- C1 (amended): for every cycle `c` with `1 ≤ c ≤ 7`, the shift amount of MCU-A
(`c`) equals the shift amount of MCU-B (`8 - c`) exactly when `c = 4`; at every
other cycle of [1, 7] the two claimed line indices differ. -/
theorem slot_exclusivity_except_four (c : Nat) (h1 : 1 ≤ c) (h7 : c ≤ 7) :
    (lineIndex 0 c = lineIndex 1 c ↔ c = 4) ∧ (c ≠ 4 → lineIndex 0 c ≠ lineIndex 1 c) := by
  simp only [lineIndex]
  constructor
  · constructor
    · intro h; simp at h; omega
    · intro h; subst h; decide
  · intro hc h; simp at h; omega

theorem slot_exclusivity_except_four_witness :
    (1 ≤ 3 ∧ 3 ≤ 7) ∧
      ((lineIndex 0 3 = lineIndex 1 3 ↔ 3 = 4) ∧ (3 ≠ 4 → lineIndex 0 3 ≠ lineIndex 1 3)) :=
  ⟨by decide, slot_exclusivity_except_four 3 (by decide) (by decide)⟩

theorem busVal_lt_eight (mcu c : Nat) (hc : c < 8) :
    busVal mcu c = some (toU32 ((1 <<< (lineIndex mcu c).toNat) ^^^ 0xff)) := by
  have h : 0 ≤ lineIndex mcu c ∧ lineIndex mcu c ≤ 30 := by
    unfold lineIndex
    split <;> omega
  simp [busVal, shl1, h]

/-- C2 (counterexample): for role MCU-B at cycle 0 the loop computes
`bus_val = 0x1FF` and submits `out_dirs = 0x100`, which has none of the eight
bus-line bits 0..7 set. -/
theorem drive_pattern_empty_for_mcu1_cycle0 :
    busVal 1 0 = some 0x1FF ∧ putArg 1 0 = some 0x100 ∧ 0x100 &&& 0xFF = 0 ∧
      (List.range 8).all (fun i => Nat.testBit 0x100 i == false) = true := by
  decide

/-- C2 (amended): for every role and every cycle `c` in [0, 8) other than the
pair (MCU-B, cycle 0), the claimed line index lies in [0, 7] and the word the
loop submits (`out_dirs`) has, among the bus-line bits 0..7, exactly the bit at
the claimed line index set and the other seven clear. -/
theorem drive_pattern_one_hot (mcu c : Nat) (hc : c < 8) (hpair : mcu = 0 ∨ c ≠ 0) :
    0 ≤ lineIndex mcu c ∧ lineIndex mcu c ≤ 7 ∧
      ∃ out_dirs, putArg mcu c = some out_dirs ∧
        ∀ i, i < 8 → (out_dirs.testBit i = true ↔ (i : Int) = lineIndex mcu c) := by
  by_cases h0 : mcu = 0
  · subst h0
    have key : ∀ c, c < 8 → ∀ i, i < 8 →
        putArg 0 c = some (1 <<< c) ∧ ((1 <<< c).testBit i = true ↔ i = c) := by decide
    refine ⟨by simp [lineIndex], by simp [lineIndex]; omega, 1 <<< c, (key c hc 0 (by decide)).1, ?_⟩
    intro i hi
    rw [(key c hc i hi).2, lineIndex_zero]
    omega
  · have hc0 : c ≠ 0 := by
      cases hpair with
      | inl h => exact absurd h h0
      | inr h => exact h
    have key : ∀ c, c < 8 → c ≠ 0 → ∀ i, i < 8 →
        putArg 1 c = some (1 <<< (8 - c)) ∧ ((1 <<< (8 - c)).testBit i = true ↔ i = 8 - c) := by
      decide
    rw [putArg_of_ne_zero mcu c h0, lineIndex_of_ne_zero mcu c h0]
    refine ⟨by omega, by omega, 1 <<< (8 - c), (key c hc hc0 0 (by decide)).1, ?_⟩
    intro i hi
    rw [(key c hc hc0 i hi).2]
    omega

theorem drive_pattern_one_hot_witness :
    0 ≤ lineIndex 1 7 ∧ lineIndex 1 7 ≤ 7 ∧
      ∃ out_dirs, putArg 1 7 = some out_dirs ∧
        ∀ i, i < 8 → (out_dirs.testBit i = true ↔ (i : Int) = lineIndex 1 7) :=
  drive_pattern_one_hot 1 7 (by decide) (Or.inr (by decide))

/-- C3: for role MCU-A and every cycle `c` in [0, 8), the claimed line index is
`c`, and the value the iteration computes and reports as "value put" (`bus_val`)
is `0xFF XOR (1 << c)`: an 8-bit value whose only cleared bit among 0..7 is bit
`c`. At `c = 3` it is `0xF7`. -/
theorem mcuA_value_put (c rx : Nat) (hc : c < 8) :
    lineIndex 0 c = (c : Int) ∧
      (∃ it c', iteration 0 c rx = some (it, c') ∧ it.report.bus_val = 0xFF ^^^ (1 <<< c)) ∧
      0xFF ^^^ (1 <<< c) < 2 ^ 8 ∧
      (∀ i, i < 8 → ((0xFF ^^^ (1 <<< c)).testBit i = false ↔ i = c)) ∧
      (c = 3 → 0xFF ^^^ (1 <<< c) = 0xF7) := by
  have key : ∀ c, c < 8 →
      busVal 0 c = some (0xFF ^^^ (1 <<< c)) ∧ 0xFF ^^^ (1 <<< c) < 2 ^ 8 ∧
        ∀ i, i < 8 → ((0xFF ^^^ (1 <<< c)).testBit i = false ↔ i = c) := by decide
  obtain ⟨hb, hlt, hbits⟩ := key c hc
  refine ⟨lineIndex_zero c, ?_, hlt, hbits, ?_⟩
  · simp [iteration, hb]
  · intro h3; subst h3; decide

theorem mcuA_value_put_witness :
    lineIndex 0 3 = ((3 : Nat) : Int) ∧
      (∃ it c', iteration 0 3 0xF7 = some (it, c') ∧ it.report.bus_val = 0xFF ^^^ (1 <<< 3)) ∧
      0xFF ^^^ (1 <<< 3) < 2 ^ 8 ∧
      (∀ i, i < 8 → ((0xFF ^^^ (1 <<< 3)).testBit i = false ↔ i = 3)) ∧
      (3 = 3 → 0xFF ^^^ (1 <<< 3) = 0xF7) :=
  mcuA_value_put 3 0xF7 (by decide)

/-- C4 (counterexample): for role MCU-A at cycle 3 the word given to
`pio_sm_put_blocking` is `0x08`, not `0xF7`: it has a 1, not a 0, at line 3, the
line this MCU pulls low, and a 0, not a 1, at line 0. -/
theorem submitted_word_not_inverted :
    putArg 0 3 = some 0x08 ∧ putArg 0 3 ≠ some 0xF7 ∧
      Nat.testBit 0x08 3 = true ∧ Nat.testBit 0x08 0 = false := by
  decide

/-- C4 (amended): for every role and every cycle `c` in [1, 7] (and for role
MCU-A also `c = 0`), the word given to `pio_sm_put_blocking` is
`out_dirs = bus_val XOR 0xFF`; within bits 0..7 it is the complement of `bus_val`
and has a 1 at exactly the line this MCU pulls low and a 0 on the other seven
lines, while `bus_val`, the reported "value put", has a 0 at exactly that line.
For role MCU-A at `c = 3` the submitted word is `0x08` and `bus_val` is `0xF7`. -/
theorem submitted_word_is_pindirs (mcu c : Nat) (hc : c < 8) (hpair : mcu = 0 ∨ c ≠ 0) :
    (∃ bus_val out_dirs, busVal mcu c = some bus_val ∧ putArg mcu c = some out_dirs ∧
        out_dirs = toU32 (bus_val ^^^ 0xFF) ∧
        (∀ i, i < 8 → out_dirs.testBit i = !bus_val.testBit i) ∧
        (∀ i, i < 8 → (out_dirs.testBit i = true ↔ (i : Int) = lineIndex mcu c)) ∧
        (∀ i, i < 8 → (bus_val.testBit i = false ↔ (i : Int) = lineIndex mcu c))) ∧
      putArg 0 3 = some 0x08 ∧ busVal 0 3 = some 0xF7 := by
  refine ⟨?_, by decide, by decide⟩
  by_cases h0 : mcu = 0
  · subst h0
    have key : ∀ c, c < 8 →
        busVal 0 c = some (0xFF ^^^ (1 <<< c)) ∧ putArg 0 c = some (1 <<< c) ∧
          1 <<< c = toU32 ((0xFF ^^^ (1 <<< c)) ^^^ 0xFF) ∧
          ∀ i, i < 8 → ((1 <<< c).testBit i = !(0xFF ^^^ (1 <<< c)).testBit i) ∧
            ((1 <<< c).testBit i = true ↔ i = c) ∧
            ((0xFF ^^^ (1 <<< c)).testBit i = false ↔ i = c) := by decide
    obtain ⟨hb, hp, hx, hbits⟩ := key c hc
    refine ⟨_, _, hb, hp, hx, fun i hi => (hbits i hi).1, ?_, ?_⟩
    · intro i hi
      rw [(hbits i hi).2.1, lineIndex_zero]; omega
    · intro i hi
      rw [(hbits i hi).2.2, lineIndex_zero]; omega
  · have hc0 : c ≠ 0 := by
      cases hpair with
      | inl h => exact absurd h h0
      | inr h => exact h
    have key : ∀ c, c < 8 → c ≠ 0 →
        busVal 1 c = some (0xFF ^^^ (1 <<< (8 - c))) ∧ putArg 1 c = some (1 <<< (8 - c)) ∧
          1 <<< (8 - c) = toU32 ((0xFF ^^^ (1 <<< (8 - c))) ^^^ 0xFF) ∧
          ∀ i, i < 8 → ((1 <<< (8 - c)).testBit i = !(0xFF ^^^ (1 <<< (8 - c))).testBit i) ∧
            ((1 <<< (8 - c)).testBit i = true ↔ i = 8 - c) ∧
            ((0xFF ^^^ (1 <<< (8 - c))).testBit i = false ↔ i = 8 - c) := by decide
    obtain ⟨hb, hp, hx, hbits⟩ := key c hc hc0
    rw [busVal_of_ne_zero mcu c h0, putArg_of_ne_zero mcu c h0, lineIndex_of_ne_zero mcu c h0]
    refine ⟨_, _, hb, hp, hx, fun i hi => (hbits i hi).1, ?_, ?_⟩
    · intro i hi
      rw [(hbits i hi).2.1]; omega
    · intro i hi
      rw [(hbits i hi).2.2]; omega

theorem submitted_word_is_pindirs_witness :
    (∃ bus_val out_dirs, busVal 0 3 = some bus_val ∧ putArg 0 3 = some out_dirs ∧
        out_dirs = toU32 (bus_val ^^^ 0xFF) ∧
        (∀ i, i < 8 → out_dirs.testBit i = !bus_val.testBit i) ∧
        (∀ i, i < 8 → (out_dirs.testBit i = true ↔ (i : Int) = lineIndex 0 3)) ∧
        (∀ i, i < 8 → (bus_val.testBit i = false ↔ (i : Int) = lineIndex 0 3))) ∧
      putArg 0 3 = some 0x08 ∧ busVal 0 3 = some 0xF7 :=
  submitted_word_is_pindirs 0 3 (by decide) (Or.inl rfl)

/-- C5: for role MCU-B at cycle 0 the claimed line index is `8 - 0 = 8`, outside
[0, 7], and among the pairs with cycle in [0, 8) it is the only one whose index
is outside [0, 7]; the submitted 32-bit word is `0x100`, with none of the bits
0..7 set, and the reported "value put" is `0x1FF`, which is not below `2 ^ 8`. -/
theorem mcuB_cycle0_out_of_range :
    lineIndex 1 0 = 8 ∧
      (∀ mcu c, c < 8 → ((lineIndex mcu c < 0 ∨ 7 < lineIndex mcu c) ↔ (mcu ≠ 0 ∧ c = 0))) ∧
      putArg 1 0 = some 0x100 ∧ 0x100 < 2 ^ 32 ∧
      (∀ i, i < 8 → Nat.testBit 0x100 i = false) ∧
      (∀ rx, ∃ it c', iteration 1 0 rx = some (it, c') ∧ it.put = 0x100 ∧
        it.report.bus_val = 0x1FF) ∧
      ¬ 0x1FF < 2 ^ 8 := by
  refine ⟨by decide, ?_, by decide, by decide, by decide, ?_, by decide⟩
  · intro mcu c hc
    unfold lineIndex
    split <;> omega
  · intro rx
    have hb : busVal 1 0 = some 0x1FF := by decide
    have ho : outDirs 0x1FF = 0x100 := by decide
    simp [iteration, hb, ho]

theorem mcuB_cycle0_out_of_range_witness :
    (lineIndex 1 0 < 0 ∨ 7 < lineIndex 1 0) ∧ ¬ (lineIndex 1 1 < 0 ∨ 7 < lineIndex 1 1) ∧
      ¬ (lineIndex 0 0 < 0 ∨ 7 < lineIndex 0 0) :=
  ⟨(mcuB_cycle0_out_of_range.2.1 1 0 (by decide)).2 (by decide),
    fun h => absurd ((mcuB_cycle0_out_of_range.2.1 1 1 (by decide)).1 h).2 (by decide),
    fun h => ((mcuB_cycle0_out_of_range.2.1 0 0 (by decide)).1 h).1 rfl⟩

/-- C10: when both roles run the same cycle value `c` in [0, 8), the two submitted
words have a common set bit among the bus lines 0..7 if and only if `c = 4`; at
every other cycle the two roles pull disjoint sets of lines. -/
theorem contention_iff_cycle_four (c : Nat) (hc : c < 8) :
    ∃ dirsA dirsB, putArg 0 c = some dirsA ∧ putArg 1 c = some dirsB ∧
      ((dirsA &&& dirsB) &&& 0xFF ≠ 0 ↔ c = 4) ∧
      (c ≠ 4 → ∀ i, i < 8 → ¬ (dirsA.testBit i = true ∧ dirsB.testBit i = true)) := by
  have key : ∀ c, c < 8 →
      putArg 0 c = some (1 <<< c) ∧ putArg 1 c = some (1 <<< (8 - c)) ∧
        (((1 <<< c) &&& (1 <<< (8 - c))) &&& 0xFF ≠ 0 ↔ c = 4) ∧
        (c ≠ 4 → ∀ i, i < 8 →
          ¬ ((1 <<< c).testBit i = true ∧ (1 <<< (8 - c)).testBit i = true)) := by decide
  obtain ⟨ha, hb, h1, h2⟩ := key c hc
  exact ⟨_, _, ha, hb, h1, h2⟩

theorem contention_iff_cycle_four_witness :
    ∃ dirsA dirsB, putArg 0 4 = some dirsA ∧ putArg 1 4 = some dirsB ∧
      ((dirsA &&& dirsB) &&& 0xFF ≠ 0 ↔ 4 = 4) ∧
      (4 ≠ 4 → ∀ i, i < 8 → ¬ (dirsA.testBit i = true ∧ dirsB.testBit i = true)) :=
  contention_iff_cycle_four 4 (by decide)

/-! ## The cycle counter and the run of the loop -/

theorem nextCycle_eq (c : Nat) : nextCycle c = (c + 1) % 8 := by
  have h : (2 : Nat) ^ 8 = 256 := by norm_num
  simp only [nextCycle, toU8, h]
  omega

theorem iteration_eq (mcu c rx : Nat) (hc : c < 8) :
    ∃ bus_val, busVal mcu c = some bus_val ∧
      iteration mcu c rx =
        some (Iter.mk (outDirs bus_val) (if mcu = 0 then some 10 else none)
          (Report.mk mcu bus_val (toU32 rx)), (c + 1) % 8) := by
  refine ⟨_, busVal_lt_eight mcu c hc, ?_⟩
  simp [iteration, busVal_lt_eight mcu c hc, nextCycle_eq]

theorem run_cycle (mcu : Nat) (rx : Nat → Nat) (n : Nat) :
    ∃ log, run mcu rx n = some (log, n % 8) := by
  induction n with
  | zero => exact ⟨[], rfl⟩
  | succ n ih =>
    obtain ⟨log, h⟩ := ih
    obtain ⟨bus_val, _, hi⟩ := iteration_eq mcu (n % 8) (rx n) (Nat.mod_lt _ (by decide))
    refine ⟨log ++ [Iter.mk (outDirs bus_val) (if mcu = 0 then some 10 else none)
      (Report.mk mcu bus_val (toU32 (rx n)))], ?_⟩
    have hmod : (n % 8 + 1) % 8 = (n + 1) % 8 := by omega
    simp only [run, h, hi, hmod]

theorem cycleAt_eq (mcu : Nat) (rx : Nat → Nat) (n : Nat) : cycleAt mcu rx n = some (n % 8) := by
  obtain ⟨log, h⟩ := run_cycle mcu rx n
  simp [cycleAt, h]

theorem indexAt_eq (mcu : Nat) (rx : Nat → Nat) (n : Nat) :
    indexAt mcu rx n = some (lineIndex mcu (n % 8)) := by
  simp [indexAt, cycleAt_eq]

theorem iterAt_eq (mcu : Nat) (rx : Nat → Nat) (n : Nat) :
    ∃ bus_val, busVal mcu (n % 8) = some bus_val ∧
      iterAt mcu rx n =
        some (Iter.mk (outDirs bus_val) (if mcu = 0 then some 10 else none)
          (Report.mk mcu bus_val (toU32 (rx n)))) := by
  obtain ⟨log, h⟩ := run_cycle mcu rx n
  obtain ⟨bus_val, hb, hi⟩ := iteration_eq mcu (n % 8) (rx n) (Nat.mod_lt _ (by decide))
  exact ⟨bus_val, hb, by simp [iterAt, h, hi]⟩

theorem putAt_eq (mcu : Nat) (rx : Nat → Nat) (n : Nat) :
    putAt mcu rx n = putArg mcu (n % 8) := by
  obtain ⟨bus_val, hb, hi⟩ := iterAt_eq mcu rx n
  simp [putAt, hi, putArg, hb]

theorem lineIndex_shift_ne (mcu p : Nat) (h0 : 0 < p) (h8 : p < 8) :
    lineIndex mcu (p % 8) ≠ lineIndex mcu (0 % 8) := by
  unfold lineIndex
  split <;> omega

theorem putArg_shift_ne (mcu p : Nat) (h0 : 0 < p) (h8 : p < 8) :
    putArg mcu (p % 8) ≠ putArg mcu (0 % 8) := by
  have keyA : ∀ p, p < 8 → 0 < p → putArg 0 (p % 8) ≠ putArg 0 (0 % 8) := by decide
  have keyB : ∀ p, p < 8 → 0 < p → putArg 1 (p % 8) ≠ putArg 1 (0 % 8) := by decide
  by_cases hm : mcu = 0
  · subst hm
    exact keyA p h8 h0
  · rw [putArg_of_ne_zero mcu _ hm, putArg_of_ne_zero mcu _ hm]
    exact keyB p h8 h0

/-- C6: for each role, whatever the engine returns, the claimed line index and
the submitted word of iteration `n + 8` are defined and equal those of iteration
`n`, for every `n`; and no `p` with `0 < p < 8` is a period of either sequence. -/
theorem index_period_eight (mcu : Nat) (rx : Nat → Nat) :
    (∀ n, (∃ idx, indexAt mcu rx n = some idx ∧ indexAt mcu rx (n + 8) = some idx) ∧
        ∃ w, putAt mcu rx n = some w ∧ putAt mcu rx (n + 8) = some w) ∧
      (∀ p, 0 < p → p < 8 → ¬ ∀ n, indexAt mcu rx (n + p) = indexAt mcu rx n) ∧
      (∀ p, 0 < p → p < 8 → ¬ ∀ n, putAt mcu rx (n + p) = putAt mcu rx n) := by
  refine ⟨?_, ?_, ?_⟩
  · intro n
    have hmod : (n + 8) % 8 = n % 8 := by omega
    refine ⟨⟨lineIndex mcu (n % 8), indexAt_eq mcu rx n, ?_⟩, ?_⟩
    · rw [indexAt_eq, hmod]
    · obtain ⟨bus_val, hb, _⟩ := iterAt_eq mcu rx n
      refine ⟨outDirs bus_val, ?_, ?_⟩
      · rw [putAt_eq]; simp [putArg, hb]
      · rw [putAt_eq, hmod]; simp [putArg, hb]
  · intro p h0 h8 hall
    have h := hall 0
    rw [indexAt_eq, indexAt_eq, Nat.zero_add] at h
    exact lineIndex_shift_ne mcu p h0 h8 (Option.some.inj h)
  · intro p h0 h8 hall
    have h := hall 0
    rw [putAt_eq, putAt_eq, Nat.zero_add] at h
    exact putArg_shift_ne mcu p h0 h8 h

theorem index_period_eight_witness :
    (¬ ∀ n, indexAt 1 (fun _ => 0) (n + 4) = indexAt 1 (fun _ => 0) n) ∧
      (¬ ∀ n, putAt 0 (fun _ => 0) (n + 7) = putAt 0 (fun _ => 0) n) :=
  ⟨(index_period_eight 1 (fun _ => 0)).2.1 4 (by decide) (by decide),
    (index_period_eight 0 (fun _ => 0)).2.2 7 (by decide) (by decide)⟩

/-! ## The event model -/

theorem inv_init (mcu : Nat) : Inv mcu init := by
  simp [Inv, init, numAdvances, numPuts, numGets, putWords, currentIter]

theorem step_inv (mcu : Nat) (e : Engine) (s : State) (h : Inv mcu s) :
    ∃ s', step mcu e s = some s' ∧ Inv mcu s' := by
  obtain ⟨pc, bus_cycle, bus_val, out_dirs, read_val, trace⟩ := s
  obtain ⟨hcyc, hwords, hle, hpc⟩ := h
  simp only at hcyc hwords hle hpc
  have hlt : bus_cycle < 8 := by rw [hcyc]; exact Nat.mod_lt _ (by decide)
  cases pc with
  | compute =>
    obtain ⟨h1, h2, h3⟩ := hpc
    have hb := busVal_lt_eight mcu bus_cycle hlt
    refine ⟨_, by simp only [step, hb]; rfl, ?_⟩
    exact ⟨hcyc, hwords, hle, h1, h2, h3, hb, rfl⟩
  | put =>
    obtain ⟨h1, h2, h3, h4, h5⟩ := hpc
    cases hr : e.txReady with
    | false =>
      refine ⟨_, by simp only [step, hr, Bool.false_eq_true, if_false]; rfl, ?_⟩
      exact ⟨hcyc, hwords, hle, h1, h2, h3, h4, h5⟩
    | true =>
      refine ⟨_, by simp only [step, hr, if_true]; rfl, ?_⟩
      refine ⟨hcyc, ?_, ?_, ?_⟩
      · simp only [putWords, numPuts, List.range_succ, List.map_append, hwords, List.map_cons,
          List.map_nil]
        congr 2
        rw [h1, ← hcyc]
        simp [putArg, h4, h5]
      · simp only [numGets, numPuts]; omega
      · simp only [numPuts, numGets, numAdvances, currentIter]
        exact ⟨by omega, h2, by simp [h3], h4, h5⟩
  | get =>
    obtain ⟨h1, h2, h3, h4, h5⟩ := hpc
    cases hr : e.rx with
    | none =>
      refine ⟨_, by simp only [step, hr, Bool.false_eq_true, if_false]; rfl, ?_⟩
      exact ⟨hcyc, hwords, hle, h1, h2, h3, h4, h5⟩
    | some v =>
      refine ⟨_, by simp only [step, hr]; rfl, ?_⟩
      refine ⟨hcyc, hwords, ?_, ?_⟩
      · simp only [numGets, numPuts]; omega
      · simp only [numPuts, numGets, numAdvances, currentIter]
        exact ⟨h1, by omega, by simp [h3], h4, h5⟩
  | report =>
    obtain ⟨h1, h2, h3, h4, h5⟩ := hpc
    refine ⟨_, by simp only [step]; rfl, ?_⟩
    by_cases hm : mcu = 0
    · subst hm
      refine ⟨hcyc, hwords, hle, ?_⟩
      simp only [numPuts, numGets, numAdvances, currentIter, if_true, List.singleton_append]
      exact ⟨h1, h2, by simp [h3, bodyEvents], h4, h5⟩
    · refine ⟨?_, ?_, ?_, ?_⟩
      · simpa [hm, numAdvances] using hcyc
      · simpa [hm, numPuts, putWords] using hwords
      · simpa [hm, numPuts, numGets] using hle
      · simp only [hm, if_false, List.nil_append, numPuts, numGets, numAdvances, currentIter]
        exact ⟨h1, h2, by simp [h3, bodyEvents, hm], h4, h5⟩
  | advance =>
    obtain ⟨h1, h2, h3, h4, h5⟩ := hpc
    refine ⟨_, by simp only [step]; rfl, ?_⟩
    refine ⟨?_, hwords, hle, ?_⟩
    · simp only [numAdvances, nextCycle_eq]
      rw [hcyc]; omega
    · simp only [numPuts, numGets, numAdvances, currentIter]
      exact ⟨h1, h2, trivial⟩

theorem exec_inv (mcu : Nat) (envs : List Engine) (s : State) (h : Inv mcu s) :
    ∃ s', exec mcu envs s = some s' ∧ Inv mcu s' := by
  induction envs generalizing s with
  | nil => exact ⟨s, rfl, h⟩
  | cons e es ih =>
    obtain ⟨s1, hs1, hinv1⟩ := step_inv mcu e s h
    obtain ⟨s2, hs2, hinv2⟩ := ih s1 hinv1
    exact ⟨s2, by simp only [exec, hs1, hs2], hinv2⟩

/-- One loop body against an engine that is ready at every step is the
iteration of the loop: same submitted word, same delay, same diagnostic line,
same new counter. -/
theorem exec_body_eq_iteration (mcu rx : Nat) (s : State) (hpc : s.pc = Pc.compute) :
    exec mcu (List.replicate 5 (Engine.mk true (some rx))) s =
      match iteration mcu s.bus_cycle rx with
      | none => none
      | some (it, bus_cycle') =>
        some (State.mk Pc.compute bus_cycle' it.report.bus_val it.put it.report.read_val
          (Event.advance bus_cycle' :: Event.print it.report ::
            ((match it.sleep with
              | some us => [Event.sleep us]
              | none => []) ++ Event.get it.report.read_val :: Event.put it.put :: s.trace))) := by
  obtain ⟨pc, bus_cycle, bus_val, out_dirs, read_val, trace⟩ := s
  simp only at hpc
  subst hpc
  cases hb : busVal mcu bus_cycle with
  | none => simp [List.replicate, exec, step, iteration, hb]
  | some bv =>
    by_cases hm : mcu = 0
    · subst hm
      simp [List.replicate, exec, step, iteration, hb]
    · simp [List.replicate, exec, step, iteration, hb, hm]

/-- The first loop body of MCU-A, with an engine that stalls once on each call
and then returns `0xFE`. -/
theorem exec_first_body_mcu0 :
    exec 0 [Engine.mk true none, Engine.mk false none, Engine.mk true none,
        Engine.mk true none, Engine.mk true (some 0xFE), Engine.mk true none,
        Engine.mk true none] init =
      some (State.mk Pc.compute 1 0xFE 0x01 0xFE
        [Event.advance 1, Event.print (Report.mk 0 0xFE 0xFE), Event.sleep 10,
          Event.get 0xFE, Event.put 0x01]) := by
  decide

theorem step_changes_cycle (mcu : Nat) (e : Engine) (s s' : State)
    (hs : step mcu e s = some s') (hne : s'.bus_cycle ≠ s.bus_cycle) :
    s.pc = Pc.advance ∧ s'.trace = Event.advance s'.bus_cycle :: s.trace := by
  obtain ⟨pc, bus_cycle, bus_val, out_dirs, read_val, trace⟩ := s
  cases pc with
  | compute =>
    simp only [step] at hs
    split at hs
    · exact absurd hs (by simp)
    · cases hs; exact absurd rfl hne
  | put =>
    simp only [step] at hs
    split at hs <;> (cases hs; exact absurd rfl hne)
  | get =>
    simp only [step] at hs
    split at hs <;> (cases hs; exact absurd rfl hne)
  | report =>
    simp only [step] at hs
    cases hs; exact absurd rfl hne
  | advance =>
    simp only [step] at hs
    cases hs
    exact ⟨rfl, rfl⟩

theorem putWords_getElem (mcu : Nat) (t : List Event)
    (hwords : (putWords t).map some = (List.range (numPuts t)).map (fun k => putArg mcu (k % 8)))
    (k : Nat) (hk : k < numPuts t) : (putWords t)[k]? = putArg mcu (k % 8) := by
  have h := congrArg (fun l => l[k]?) hwords
  simp only [List.getElem?_map, List.getElem?_range hk, Option.map_some'] at h
  cases hg : (putWords t)[k]? with
  | none => rw [hg] at h; exact absurd h (by simp)
  | some w => rw [hg] at h; simpa using h

theorem run_rel (mcu : Nat) (rx rx' : Nat → Nat) (n : Nat) :
    ∃ log log', run mcu rx n = some (log, n % 8) ∧ run mcu rx' n = some (log', n % 8) ∧
      log.length = n ∧ log'.length = n ∧ log.map Iter.put = log'.map Iter.put := by
  induction n with
  | zero => exact ⟨[], [], rfl, rfl, rfl, rfl, rfl⟩
  | succ n ih =>
    obtain ⟨log, log', h, h', hl, hl', hp⟩ := ih
    obtain ⟨bus_val, _, hi⟩ := iteration_eq mcu (n % 8) (rx n) (Nat.mod_lt _ (by decide))
    obtain ⟨bus_val', _, hi'⟩ := iteration_eq mcu (n % 8) (rx' n) (Nat.mod_lt _ (by decide))
    have hbv : bus_val = bus_val' := by
      have : some bus_val = some bus_val' := by rw [← ‹busVal mcu (n % 8) = some bus_val›]; assumption
      exact Option.some.inj this
    subst hbv
    have hmod : (n % 8 + 1) % 8 = (n + 1) % 8 := by omega
    refine ⟨log ++ [Iter.mk (outDirs bus_val) (if mcu = 0 then some 10 else none)
      (Report.mk mcu bus_val (toU32 (rx n)))],
      log' ++ [Iter.mk (outDirs bus_val) (if mcu = 0 then some 10 else none)
      (Report.mk mcu bus_val (toU32 (rx' n)))], ?_, ?_, ?_, ?_, ?_⟩
    · simp only [run, h, hi, hmod]
    · simp only [run, h', hi', hmod]
    · simp [hl]
    · simp [hl']
    · simp [hp]

/-- C7: the counter starts at 0; the store of line 35 is `(bus_cycle + 1) mod 8`
with no truncation by the `uint8_t` conversion, in every iteration; after `n`
completed iterations the counter is `n mod 8`, which is below 8, and 7 is
followed by 0; every state the event model reaches has its counter below 8. -/
theorem bus_cycle_invariant (mcu : Nat) (rx : Nat → Nat) :
    cycleAt mcu rx 0 = some 0 ∧ init.bus_cycle = 0 ∧
      (∀ c, nextCycle c = (c + 1) % 8 ∧ (c + 1) % 8 < 2 ^ 8) ∧
      (∀ c r it c', iteration mcu c r = some (it, c') → c' = (c + 1) % 8) ∧
      (∀ n, cycleAt mcu rx n = some (n % 8) ∧ n % 8 < 8) ∧
      nextCycle 7 = 0 ∧
      (∀ envs, ∃ s, exec mcu envs init = some s ∧ s.bus_cycle < 8 ∧
        s.bus_cycle = numAdvances s.trace % 8) := by
  refine ⟨rfl, rfl, ?_, ?_, ?_, by decide, ?_⟩
  · intro c
    exact ⟨nextCycle_eq c, by omega⟩
  · intro c r it c' h
    simp only [iteration] at h
    split at h
    · exact absurd h (by simp)
    · cases h
      exact nextCycle_eq c
  · intro n
    exact ⟨cycleAt_eq mcu rx n, Nat.mod_lt _ (by decide)⟩
  · intro envs
    obtain ⟨s, hs, hcyc, _⟩ := exec_inv mcu envs init (inv_init mcu)
    exact ⟨s, hs, by rw [hcyc]; exact Nat.mod_lt _ (by decide), hcyc⟩

theorem bus_cycle_invariant_witness :
    ∀ it c', iteration 1 7 0xFD = some (it, c') → c' = (7 + 1) % 8 :=
  (bus_cycle_invariant 1 (fun _ => 0xFD)).2.2.2.1 7 0xFD

/-- C8: for a fixed role and any two sequences `rx`, `rx'` of values returned by
`pio_sm_get_blocking`, the runs over the first `n` iterations both exist, end
with the same counter and submit the same words in the same order, for every
`n`; iteration `n` differs between the two runs at most in the `read_val` of its
diagnostic line, which is the value returned in that same iteration. -/
theorem observed_not_fed_back (mcu : Nat) (rx rx' : Nat → Nat) :
    (∀ n, ∃ log log' c, run mcu rx n = some (log, c) ∧ run mcu rx' n = some (log', c) ∧
        log.length = n ∧ log'.length = n ∧ log.map Iter.put = log'.map Iter.put) ∧
      (∀ n, cycleAt mcu rx n = cycleAt mcu rx' n ∧ indexAt mcu rx n = indexAt mcu rx' n ∧
        putAt mcu rx n = putAt mcu rx' n) ∧
      (∀ n, ∃ it it', iterAt mcu rx n = some it ∧ iterAt mcu rx' n = some it' ∧
        it.put = it'.put ∧ it.sleep = it'.sleep ∧ it.report.mcu = it'.report.mcu ∧
        it.report.bus_val = it'.report.bus_val ∧
        it.report.read_val = toU32 (rx n) ∧ it'.report.read_val = toU32 (rx' n)) := by
  refine ⟨?_, ?_, ?_⟩
  · intro n
    obtain ⟨log, log', h, h', hl, hl', hp⟩ := run_rel mcu rx rx' n
    exact ⟨log, log', n % 8, h, h', hl, hl', hp⟩
  · intro n
    refine ⟨?_, ?_, ?_⟩
    · rw [cycleAt_eq, cycleAt_eq]
    · rw [indexAt_eq, indexAt_eq]
    · rw [putAt_eq, putAt_eq]
  · intro n
    obtain ⟨bus_val, hb, hi⟩ := iterAt_eq mcu rx n
    obtain ⟨bus_val', hb', hi'⟩ := iterAt_eq mcu rx' n
    have hbv : bus_val = bus_val' := Option.some.inj (hb.symm.trans hb')
    subst hbv
    exact ⟨_, _, hi, hi', rfl, rfl, rfl, rfl, rfl, rfl⟩

theorem observed_not_fed_back_witness :
    putAt 0 (fun _ => 0xF7) 3 = putAt 0 (fun k => k) 3 :=
  ((observed_not_fed_back 0 (fun _ => 0xF7) (fun k => k)).2.1 3).2.2

/-- C9: in the event model, from the initial state and whatever the engine does,
the loop always reaches a state in which: advances ≤ completed retrieves ≤
completed submits ≤ advances + 1; the counter equals the number of advances
mod 8; the `k`-th submitted word (counted from 0) is the word of counter value
`k mod 8`; and a step that changes the counter is taken only when the events
since the previous advance are exactly one submit of the current word followed
by exactly one retrieve (then the delay of MCU-A and the diagnostic line). -/
theorem advance_gated_by_engine (mcu : Nat) (envs : List Engine) :
    ∃ s, exec mcu envs init = some s ∧
      numAdvances s.trace ≤ numGets s.trace ∧ numGets s.trace ≤ numPuts s.trace ∧
      numPuts s.trace ≤ numAdvances s.trace + 1 ∧
      s.bus_cycle = numAdvances s.trace % 8 ∧
      (putWords s.trace).length = numPuts s.trace ∧
      (∀ k, k < numPuts s.trace → (putWords s.trace)[k]? = putArg mcu (k % 8)) ∧
      (∀ e s', step mcu e s = some s' → s'.bus_cycle ≠ s.bus_cycle →
        currentIter s.trace = bodyEvents mcu s.out_dirs s.bus_val s.read_val ∧
        putArg mcu s.bus_cycle = some s.out_dirs ∧
        numPuts s.trace = numAdvances s.trace + 1 ∧
        numGets s.trace = numAdvances s.trace + 1 ∧
        s'.trace = Event.advance s'.bus_cycle :: s.trace) := by
  obtain ⟨s, hs, hcyc, hwords, hle, hpc⟩ := exec_inv mcu envs init (inv_init mcu)
  have hlen : (putWords s.trace).length = numPuts s.trace := by
    have h := congrArg List.length hwords
    simpa using h
  have hcounts : numAdvances s.trace ≤ numGets s.trace ∧
      numPuts s.trace ≤ numAdvances s.trace + 1 := by
    cases hp : s.pc <;> rw [hp] at hpc <;> simp only at hpc <;> omega
  refine ⟨s, hs, hcounts.1, hle, hcounts.2, hcyc, hlen, putWords_getElem mcu s.trace hwords, ?_⟩
  intro e s' hstep hne
  obtain ⟨hadv, htrace⟩ := step_changes_cycle mcu e s s' hstep hne
  rw [hadv] at hpc
  obtain ⟨h1, h2, h3, h4, h5⟩ := hpc
  exact ⟨h3, by simp [putArg, h4, h5], h1, h2, htrace⟩

theorem advance_gated_by_engine_witness :
    ∃ s, exec 0 [Engine.mk true none, Engine.mk false none, Engine.mk true (some 0xFE),
        Engine.mk true none, Engine.mk true (some 0xFE), Engine.mk true none] init = some s ∧
      numAdvances s.trace ≤ numGets s.trace ∧ numGets s.trace ≤ numPuts s.trace ∧
      numPuts s.trace ≤ numAdvances s.trace + 1 ∧
      s.bus_cycle = numAdvances s.trace % 8 ∧
      (putWords s.trace).length = numPuts s.trace ∧
      (∀ k, k < numPuts s.trace → (putWords s.trace)[k]? = putArg 0 (k % 8)) ∧
      (∀ e s', step 0 e s = some s' → s'.bus_cycle ≠ s.bus_cycle →
        currentIter s.trace = bodyEvents 0 s.out_dirs s.bus_val s.read_val ∧
        putArg 0 s.bus_cycle = some s.out_dirs ∧
        numPuts s.trace = numAdvances s.trace + 1 ∧
        numGets s.trace = numAdvances s.trace + 1 ∧
        s'.trace = Event.advance s'.bus_cycle :: s.trace) :=
  advance_gated_by_engine 0 _

end DualMcu
